import Mathlib

/-!
Verification development for the Converso document-conversion core.

Shallow embedding of the decision logic of the repository:
strings are modelled as Lean strings (lists of characters), page
geometry as rational numbers, regular-expression passes as explicit
recursive scans over character lists, and the stateful conversion
loops as folds over explicit state records.  The character classes
model the code's regex classes restricted to ASCII plus the accented
letters the code's own patterns enumerate; every concrete input used
in a theorem stays inside that alphabet, where the model and the
Python regex engine agree.
-/

namespace Converso

/-- Whitespace as matched by the regex class backslash-s and by strip,
restricted to the ASCII whitespace characters. -/
def isPySpace (c : Char) : Bool :=
  c = ' ' || c = '\t' || c = '\n' || c = '\r' || c = '\x0b' || c = '\x0c'

/-- ASCII decimal digit, the regex class backslash-d. -/
def isAsciiDigit (c : Char) : Bool :=
  '0' ≤ c && c ≤ '9'

/-- Lowercase letters of the pattern class a-z plus the accented lowercase
letters written out in the code's third OCR-spacing pattern. -/
def isLowerPT (c : Char) : Bool :=
  ('a' ≤ c && c ≤ 'z') ||
    (c = 'á' || c = 'é' || c = 'í' || c = 'ó' || c = 'ú' ||
     c = 'â' || c = 'ê' || c = 'ô' || c = 'ã' || c = 'õ' || c = 'ü' || c = 'ç')

/-- Uppercase letters of the pattern class A-Z plus the accented uppercase
letters written out in the code's third OCR-spacing pattern. -/
def isUpperPT (c : Char) : Bool :=
  ('A' ≤ c && c ≤ 'Z') ||
    (c = 'Á' || c = 'É' || c = 'Í' || c = 'Ó' || c = 'Ú' ||
     c = 'Â' || c = 'Ê' || c = 'Ô' || c = 'Ã' || c = 'Õ' || c = 'Ü' || c = 'Ç')

/-- Word characters, the regex class backslash-w, restricted to ASCII
alphanumerics, the underscore and the accented letters above. -/
def isWordChar (c : Char) : Bool :=
  c.isAlphanum || c = '_' || isLowerPT c || isUpperPT c

/-- Python str.strip on a character list: drop whitespace from both ends. -/
def pyStrip (l : List Char) : List Char :=
  ((l.dropWhile isPySpace).reverse.dropWhile isPySpace).reverse

/-- Python str.strip on a string. -/
def pyStripStr (s : String) : String :=
  String.mk (pyStrip s.data)

/-- The regex substitution collapsing every whitespace run to one space
(pattern backslash-s-plus, replacement a single space): a whitespace
character followed by more whitespace is dropped, the last character of
each run becomes the single replacement space. -/
def collapseWs : List Char → List Char
  | [] => []
  | c :: cs =>
    if isPySpace c then
      match cs with
      | [] => [' ']
      | d :: _ => if isPySpace d then collapseWs cs else ' ' :: collapseWs cs
    else c :: collapseWs cs

/-- The replacement text of the digit-normalization pass. -/
def numTok : List Char := ['{', 'N', 'U', 'M', '}']

/-- Flush of a buffered digit run for the digit-normalization pass: a
non-empty run whose two neighbours are absent or non-word characters is
replaced by the NUM placeholder, any other run is kept verbatim. -/
def flushRun (leftOk : Bool) (buf : List Char) (rightOk : Bool) : List Char :=
  if buf.isEmpty then []
  else if leftOk && rightOk then numTok
  else buf

/-- The regex substitution replacing every boundary-delimited digit run by
the NUM placeholder.  The pattern is a digit run with a word boundary on
both sides; since digits are word characters, a match is exactly a
maximal digit run whose left and right neighbours are absent or non-word.
The scan buffers the current digit run in buf, remembers in runLeftOk
whether its left neighbour was a boundary, and tracks in prevWord whether
the previous character was a word character. -/
def normNumsA (prevWord runLeftOk : Bool) (buf : List Char) : List Char → List Char
  | [] => flushRun runLeftOk buf true
  | c :: cs =>
    if isAsciiDigit c then
      if buf.isEmpty then normNumsA true (!prevWord) [c] cs
      else normNumsA true runLeftOk (buf ++ [c]) cs
    else
      flushRun runLeftOk buf (!isWordChar c) ++ c :: normNumsA (isWordChar c) true [] cs

/-- The whole digit-normalization substitution, starting at a string
boundary. -/
def normNums (l : List Char) : List Char :=
  normNumsA false true [] l

/-- Normalization step of find-common-pattern: digit runs to the NUM
placeholder, whitespace runs collapsed to one space, then strip. -/
def normalizePattern (s : String) : String :=
  String.mk (pyStrip (collapseWs (normNums s.data)))

/-- The keys of a Counter in first-occurrence order: each element appears
once, at the position of its first occurrence. -/
def firstOccs : List String → List String
  | [] => []
  | x :: xs => x :: (firstOccs xs).filter (fun y => y ≠ x)

/-- The earliest pair of maximal second component, matching how the
most-common query of a Counter breaks ties (stable selection, insertion
order). -/
def firstMax : List (String × Nat) → Option (String × Nat)
  | [] => none
  | p :: ps =>
    match firstMax ps with
    | none => some p
    | some q => if q.2 > p.2 then some q else some p

/-- Counter(l).most_common(1): the earliest element of maximal
multiplicity, with its multiplicity. -/
def mostCommon1 (l : List String) : Option (String × Nat) :=
  firstMax ((firstOccs l).map (fun k => (k, l.count k)))

/-- The find-common-pattern routine of the PDF analyzer.  The code
compares the winning multiplicity against len times 0.5 in floating
point; scaling by one half is exact in binary floating point, so the
comparison is exactly two times count at least len. -/
def findCommonPattern (texts : List String) : String :=
  if texts.isEmpty then ""
  else
    let normalized := texts.map normalizePattern
    match mostCommon1 normalized with
    | some pc => if 2 * pc.2 ≥ texts.length then pc.1 else ""
    | none => ""

/-- Flush of a buffered digit run for the findall pattern of the
page-number detector: the run is reported only when both neighbours are
absent or non-word characters. -/
def runFlush (leftOk : Bool) (buf : List Char) (rightOk : Bool) : List (List Char) :=
  if buf.isEmpty then []
  else if leftOk && rightOk then [buf]
  else []

/-- The boundary-delimited digit runs of a string, in order: the matches
of the findall pattern of the page-number detector, scanned with the same
buffering as the digit-normalization pass. -/
def digitRunsA (prevWord runLeftOk : Bool) (buf : List Char) :
    List Char → List (List Char)
  | [] => runFlush runLeftOk buf true
  | c :: cs =>
    if isAsciiDigit c then
      if buf.isEmpty then digitRunsA true (!prevWord) [c] cs
      else digitRunsA true runLeftOk (buf ++ [c]) cs
    else
      runFlush runLeftOk buf (!isWordChar c) ++ digitRunsA (isWordChar c) true [] cs

/-- All boundary-delimited digit runs of a string. -/
def digitRuns (l : List Char) : List (List Char) :=
  digitRunsA false true [] l

/-- Decimal value of a digit run, the int conversion. -/
def digitsToNat (ds : List Char) : Nat :=
  ds.foldl (fun n c => 10 * n + (c.toNat - 48)) 0

/-- The number a footer contributes: the value of the last
boundary-delimited digit run, when any exists. -/
def lastNumber (footer : String) : Option Nat :=
  (digitRuns footer.data).getLast?.map digitsToNat

/-- Count of consecutive pairs that increment by exactly one. -/
def seqPairs : List Nat → Nat
  | a :: b :: rest => (if b = a + 1 then 1 else 0) + seqPairs (b :: rest)
  | _ => 0

/-- The page-number detector: numbers from the footers, at least two of
them, and the incrementing pairs measured against 0.6 times the count of
numbers.  The float comparison sequential at least len times 0.6 agrees
with five times sequential at least three times len for every feasible
list length, since 0.6 rounds below three fifths by far less than the
integer spacing involved. -/
def hasPageNumbers (footers : List String) : Bool :=
  let numbers := footers.filterMap lastNumber
  if numbers.length < 2 then false
  else 5 * seqPairs numbers ≥ 3 * numbers.length

/-- Page analysis restricted to the fields the cross-page detection
reads: the concatenated header and footer text of one page. -/
structure PageHF where
  header_text : String
  footer_text : String
deriving DecidableEq, Repr

/-- Document analysis fields produced by the cross-page detection. -/
structure DocHF where
  common_header : String := ""
  common_footer : String := ""
  detected_page_numbers : Bool := false
deriving DecidableEq, Repr

/-- The non-empty header texts of the analyzed pages, in page order. -/
def headerTexts (pages : List PageHF) : List String :=
  (pages.map (fun p => p.header_text)).filter (fun t => t ≠ "")

/-- The non-empty footer texts of the analyzed pages, in page order. -/
def footerTexts (pages : List PageHF) : List String :=
  (pages.map (fun p => p.footer_text)).filter (fun t => t ≠ "")

/-- The detect-common-headers-footers pass: documents with fewer than two
analyzed pages are left at the defaults; otherwise the non-empty header
and footer texts feed the pattern finder, and the footers additionally
feed the page-number detector. -/
def detectCommonHeadersFooters (pages : List PageHF) : DocHF :=
  if pages.length < 2 then {}
  else
    { common_header :=
        if (headerTexts pages).isEmpty then "" else findCommonPattern (headerTexts pages)
      common_footer :=
        if (footerTexts pages).isEmpty then "" else findCommonPattern (footerTexts pages)
      detected_page_numbers :=
        if (footerTexts pages).isEmpty then false else hasPageNumbers (footerTexts pages) }

/-- Region tag assigned to a span by the page analyzer. -/
inductive BlockType where
  | header
  | footer
  | body
deriving DecidableEq, Repr

/-- Region classification of one non-empty span from the page analyzer:
strict comparison of the vertical center against the two thresholds
derived from the page height and the margin ratios. -/
def classifySpan (height hmr fmr y0 y1 : ℚ) : BlockType :=
  let headerThreshold := height * hmr
  let footerThreshold := height * (1 - fmr)
  let yCenter := (y0 + y1) / 2
  if yCenter < headerThreshold then .header
  else if yCenter > footerThreshold then .footer
  else .body

/-- Page model for the scanned-page test: the native text of the page,
the image list returned by the full image query, and the block types of
the page dictionary (type 1 marks a raster image block). -/
structure PageModel where
  nativeText : String
  images : List Nat
  blockTypes : List Nat
deriving DecidableEq, Repr

/-- The scanned-page test of the OCR engine: enough stripped native text
means not scanned; an empty image list means not scanned; otherwise the
page is scanned exactly when it has at least one image block. -/
def isScannedPage (p : PageModel) (minTextLen : Nat := 20) : Bool :=
  if (pyStripStr p.nativeText).length ≥ minTextLen then false
  else if p.images.isEmpty then false
  else (p.blockTypes.filter (fun t => t = 1)).length > 0

/-- The document-type detector: counts scanned and native pages and
returns native when no page is scanned, scanned when no page is native,
mixed otherwise. -/
def detectDocumentType (pages : List PageModel) : String :=
  let scannedCount := (pages.filter (fun p => isScannedPage p)).length
  let nativeCount := (pages.filter (fun p => !isScannedPage p)).length
  if scannedCount = 0 then "native"
  else if nativeCount = 0 then "scanned"
  else "mixed"

/-- Paragraph font size of the OCR path: 0.65 times the average line
height, clamped into the interval from 8 to 24 points (the decimal
literal 0.65 is modelled as the rational 65/100; the claims only compare
the result against the integer thresholds 13, 14 and 18). -/
def ocrFontSize (avgHeight : ℚ) : ℚ :=
  max (min (avgHeight * (65 / 100)) 24) 8

/-- Heading decision of the OCR path: a paragraph gets a heading style
exactly when its font size exceeds 13 and its text is shorter than 80
characters; the level is then 1 from 18 points up, 2 from 14 points up
and 3 below that.  None models a plain left-aligned paragraph. -/
def ocrParagraphStyle (fontSize : ℚ) (textLen : Nat) : Option Nat :=
  if fontSize > 13 ∧ textLen < 80 then
    some (if fontSize ≥ 18 then 1 else if fontSize ≥ 14 then 2 else 3)
  else none

/-- OCR line: recognized text with its page-space bounding box. -/
structure OCRLine where
  text : String
  x0 : ℚ
  y0 : ℚ
  x1 : ℚ
  y1 : ℚ
  confidence : ℚ := 0
deriving DecidableEq, Repr

/-- Sort key of the OCR grouping: top coordinate, then left coordinate. -/
def lineLeOrder (a b : OCRLine) : Bool :=
  a.y0 < b.y0 || (a.y0 = b.y0 && a.x0 ≤ b.x0)

/-- Stable sort of OCR lines in reading order, the sorted call. -/
def sortLines (lines : List OCRLine) : List OCRLine :=
  lines.mergeSort lineLeOrder

/-- Loop of the OCR grouping: current holds the group being built, and a
new group starts when the gap from the bottom of the previous line to the
top of the next exceeds 1.5 times the average of their heights. -/
def groupGo (current : List OCRLine) : List OCRLine → List (List OCRLine)
  | [] => [current]
  | l :: ls =>
    match current.getLast? with
    | none => groupGo [l] ls
    | some prev =>
      let gap := l.y0 - prev.y1
      let avgHeight := ((prev.y1 - prev.y0) + (l.y1 - l.y0)) / 2
      if gap > avgHeight * (3 / 2) then current :: groupGo [l] ls
      else groupGo (current ++ [l]) ls

/-- Grouping of OCR lines into paragraphs by vertical proximity.  The
page-height parameter mirrors the source signature; the body never reads
it. -/
def groupOcrLines (lines : List OCRLine) (_pageHeight : ℚ) : List (List OCRLine) :=
  match sortLines lines with
  | [] => []
  | l :: ls => groupGo [l] ls

/-- First OCR-spacing substitution: a colon between two word characters
gets a space inserted after it; scanning resumes after the match. -/
def subColon : List Char → List Char
  | [] => []
  | [a] => [a]
  | [a, b] => [a, b]
  | a :: b :: c :: rest =>
    if b = ':' && isWordChar a && isWordChar c then
      a :: ':' :: ' ' :: c :: subColon rest
    else a :: subColon (b :: c :: rest)

/-- Second OCR-spacing substitution: a period after a word character and
before an optional whitespace character plus a word character gets the
replacement word, period, space, captured tail; scanning resumes after
the match.  The optional whitespace is matched greedily, as the regex
engine does.  When the period is followed by whitespace and then a
non-word character, no match can start at the period, the whitespace or
that character (none is a word character), so the scan emits them and
resumes after them. -/
def subPeriod : List Char → List Char
  | [] => []
  | [a] => [a]
  | [a, b] => [a, b]
  | a :: b :: c :: rest =>
    if b = '.' && isWordChar a then
      if isPySpace c then
        match rest with
        | d :: rest2 =>
          if isWordChar d then a :: '.' :: ' ' :: c :: d :: subPeriod rest2
          else a :: b :: c :: d :: subPeriod rest2
        | [] => [a, b, c]
      else if isWordChar c then a :: '.' :: ' ' :: c :: subPeriod rest
      else a :: subPeriod (b :: c :: rest)
    else a :: subPeriod (b :: c :: rest)

/-- Third OCR-spacing substitution: a space is inserted between a
lowercase letter and an uppercase letter that follow each other. -/
def subLU : List Char → List Char
  | [] => []
  | [a] => [a]
  | a :: b :: rest =>
    if isLowerPT a && isUpperPT b then a :: ' ' :: b :: subLU rest
    else a :: subLU (b :: rest)

/-- Scanner state of the fourth OCR-spacing substitution: outside
whitespace, after exactly one pending whitespace character, or inside a
run of two or more. -/
inductive WsScan where
  | norm
  | one (w : Char)
  | many

/-- Fourth OCR-spacing substitution: every whitespace run of length at
least two collapses to a single space; a lone whitespace character is
kept verbatim. -/
def subSpacesGo : WsScan → List Char → List Char
  | .norm, [] => []
  | .one w, [] => [w]
  | .many, [] => [' ']
  | .norm, c :: cs =>
    if isPySpace c then subSpacesGo (.one c) cs else c :: subSpacesGo .norm cs
  | .one w, c :: cs =>
    if isPySpace c then subSpacesGo .many cs else w :: c :: subSpacesGo .norm cs
  | .many, c :: cs =>
    if isPySpace c then subSpacesGo .many cs else ' ' :: c :: subSpacesGo .norm cs

/-- Substitution collapsing whitespace runs of length at least two. -/
def subSpaces (l : List Char) : List Char :=
  subSpacesGo .norm l

/-- The OCR spacing normalization: the four substitutions in source
order, then strip. -/
def normalizeOcrSpacing (s : String) : String :=
  String.mk (pyStrip (subSpaces (subLU (subPeriod (subColon s.data)))))

/-- Window test for the first OCR-spacing pattern: some position holds a
word character, a colon and a word character in sequence. -/
def hasColonTrigger : List Char → Bool
  | a :: b :: c :: rest =>
    (b = ':' && isWordChar a && isWordChar c) || hasColonTrigger (b :: c :: rest)
  | _ => false

/-- Window test for the second OCR-spacing pattern: some position holds a
word character, a period and then a word character, directly or behind
one whitespace character. -/
def hasPeriodTrigger : List Char → Bool
  | a :: b :: c :: rest =>
    (b = '.' && isWordChar a &&
      (isWordChar c ||
        (isPySpace c && (match rest with | d :: _ => isWordChar d | [] => false)))) ||
    hasPeriodTrigger (b :: c :: rest)
  | _ => false

/-- Window test for the third OCR-spacing pattern: some position holds a
lowercase letter directly followed by an uppercase letter. -/
def hasLUTrigger : List Char → Bool
  | a :: b :: rest => (isLowerPT a && isUpperPT b) || hasLUTrigger (b :: rest)
  | _ => false

/-- Window test for the fourth OCR-spacing pattern: some position holds
two adjacent whitespace characters. -/
def hasWsRun : List Char → Bool
  | a :: b :: rest => (isPySpace a && isPySpace b) || hasWsRun (b :: rest)
  | _ => false

/-- Modelled from the spec: the repository only declares the
remove-hyphenation option (conversores base, ConversionOptions); the
reconstruction pass that applies it is not in the sources.  Per the spec
it is a regex pass joining a word broken by a literal end-of-line hyphen
with its continuation word, firing only on a word character, hyphen,
newline, word character sequence; the scan joins at each such break. -/
def removeHyphenation : List Char → List Char
  | [] => []
  | [a] => [a]
  | [a, b] => [a, b]
  | [a, b, c] => [a, b, c]
  | a :: b :: c :: d :: rest =>
    if isWordChar a && b = '-' && c = '\n' && isWordChar d then
      a :: d :: removeHyphenation rest
    else a :: removeHyphenation (b :: c :: d :: rest)

/-- Window test for an end-of-line hyphenation break: some position holds
a word character, a hyphen, a newline and a word character in sequence. -/
def hasHyphBreak : List Char → Bool
  | a :: b :: c :: d :: rest =>
    (isWordChar a && b = '-' && c = '\n' && isWordChar d) ||
      hasHyphBreak (b :: c :: d :: rest)
  | _ => false

/-- Python str.split with no arguments: maximal runs of non-whitespace
characters, buffered in buf. -/
def pyWordsA (buf : List Char) : List Char → List (List Char)
  | [] => if buf.isEmpty then [] else [buf]
  | c :: cs =>
    if isPySpace c then
      if buf.isEmpty then pyWordsA [] cs else buf :: pyWordsA [] cs
    else pyWordsA (buf ++ [c]) cs

/-- The whitespace-split word list of a character list. -/
def pyWords (l : List Char) : List (List Char) :=
  pyWordsA [] l

/-- Python int conversion of a rational: truncation toward zero. -/
def pyTrunc (q : ℚ) : ℤ :=
  if q < 0 then -((-q).floor) else q.floor

/-- Greedy fill loop of the text wrapper: words are appended to the
current line while the running length plus the word length plus one stays
within the character budget, otherwise the current line is flushed (when
non-empty) and the word starts a new line. -/
def wrapGo (cpl : ℤ) (currentLine : List (List Char)) (currentLength : ℤ) :
    List (List Char) → List (List (List Char))
  | [] => if currentLine.isEmpty then [] else [currentLine]
  | w :: ws =>
    if currentLength + w.length + 1 ≤ cpl then
      wrapGo cpl (currentLine ++ [w]) (currentLength + w.length + 1) ws
    else
      (if currentLine.isEmpty then [] else [currentLine]) ++ wrapGo cpl [w] w.length ws

/-- Space-joined line, the join call on a line's words. -/
def spaceJoin (ws : List (List Char)) : List Char :=
  List.intercalate [' '] ws

/-- The wrap-text routine of the PDF builder: an approximate character
budget from the width and the font size (the float literal 0.5 scales
exactly in binary floating point), greedy filling, and the single empty
line when no line was produced. -/
def wrapText (text : List Char) (maxWidth fontSize : ℚ) : List (List Char) :=
  let charsPerLine := pyTrunc (maxWidth / (fontSize * (1 / 2)))
  let lines := (wrapGo charsPerLine [] 0 (pyWords text)).map spaceJoin
  if lines.isEmpty then [[]] else lines

/-- Reconstructed paragraph of the OCR path: its text and its heading
level when it is styled as a heading. -/
structure Paragraph where
  text : String
  heading : Option Nat
deriving DecidableEq, Repr

/-- One group of OCR lines turned into a paragraph: texts joined with
spaces and normalized; a group whose normalized text strips to nothing is
skipped; otherwise the heading decision runs on the font size derived
from the average line height. -/
def ocrParagraphOfGroup (group : List OCRLine) : Option Paragraph :=
  let text := normalizeOcrSpacing (" ".intercalate (group.map (fun l => l.text)))
  if pyStripStr text = "" then none
  else
    let avgHeight := (group.map (fun l => l.y1 - l.y0)).sum / group.length
    some { text := text, heading := ocrParagraphStyle (ocrFontSize avgHeight) text.length }

/-- The OCR-page-to-document step: a page whose OCR finds no text lines
contributes one warning naming the one-based page number and no
paragraphs; any other page contributes its grouped paragraphs and no
warning. -/
def ocrPageToDocx (lines : List OCRLine) (pageHeight : ℚ) (pageNum : ℤ) :
    List String × List Paragraph :=
  if lines.isEmpty then
    (["Página " ++ toString (pageNum + 1) ++ ": nenhum texto detectado pelo OCR"], [])
  else
    ([], (groupOcrLines lines pageHeight).filterMap ocrParagraphOfGroup)

/-- Conversion result fields of the scanned-conversion model.  The output
document is modelled as one paragraph list per converted page, separated
in the real builder by page breaks. -/
structure ConvResultModel where
  pagesConverted : Nat := 0
  warnings : List String := []
  errors : List String := []
  docPages : List (List Paragraph) := []
  success : Bool := false
deriving DecidableEq, Repr

/-- One iteration of the scanned-conversion loop, with the OCR result and
page height of each page supplied as oracles for the external engine: the
page appends its warnings, its (possibly empty) paragraph list and one
converted-page count.  The success flag is set by convert once the loop
and the save complete, which the exception-free model always reaches. -/
def convertStep (ocr : ℤ → List OCRLine) (heights : ℤ → ℚ)
    (r : ConvResultModel) (pageNum : ℤ) : ConvResultModel :=
  let wp := ocrPageToDocx (ocr pageNum) (heights pageNum) pageNum
  { r with
    warnings := r.warnings ++ wp.1
    docPages := r.docPages ++ [wp.2]
    pagesConverted := r.pagesConverted + 1 }

/-- The whole scanned-conversion pass: the loop from the empty result,
then the success flag. -/
def convertScanned (ocr : ℤ → List OCRLine) (heights : ℤ → ℚ)
    (pages : List ℤ) : ConvResultModel :=
  { pages.foldl (convertStep ocr heights) {} with success := true }

/-- Error cases raised before any page is converted. -/
inductive ConvError where
  | fileNotFound
  | invalidRange (msg : String)
deriving DecidableEq, Repr

/-- Truthiness test used by the range validation: a present value that is
not positive. -/
def optNonpos : Option ℤ → Bool
  | some v => v ≤ 0
  | none => false

/-- The resolve-page-range validation, in source order: start at least
one when present, end at least one when present, end not below start when
both are present. -/
def resolvePageRange (sp ep : Option ℤ) : Except String (Option ℤ × Option ℤ) :=
  if optNonpos sp then .error "start_page deve ser >= 1"
  else if optNonpos ep then .error "end_page deve ser >= 1"
  else
    match sp, ep with
    | some s, some e =>
      if e < s then .error "end_page não pode ser menor que start_page"
      else .ok (some s, some e)
    | _, _ => .ok (sp, ep)

/-- Python range over integers: the integers from a up to but excluding
b. -/
def intRange (a b : ℤ) : List ℤ :=
  (List.range (b - a).toNat).map (fun i => a + i)

/-- The get-page-range translation: a truthy one-based start becomes the
zero-based start minus one, a truthy end is taken as the exclusive bound,
absent or zero values fall back to the whole document, and the bound is
clamped to the document length. -/
def getPageRange (docLen : Nat) (sp ep : Option ℤ) : List ℤ :=
  let first : ℤ := match sp with | some s => if s = 0 then 0 else s - 1 | none => 0
  let last : ℤ := match ep with | some e => if e = 0 then docLen else e | none => docLen
  intRange first (min last (docLen : ℤ))

/-- The steps of convert that precede any page processing: the existence
test of the input file, then the page-range validation; a coherent call
reaches the page loop with the resolved range. -/
def convertPrelude (fileExists : Bool) (sp ep : Option ℤ) :
    Except ConvError (Option ℤ × Option ℤ) :=
  if !fileExists then .error .fileNotFound
  else
    match resolvePageRange sp ep with
    | .error m => .error (.invalidRange m)
    | .ok r => .ok r

theorem filter_length_zero_iff {α : Type} (p : α → Bool) (l : List α) :
    (l.filter p).length = 0 ↔ ∀ a ∈ l, p a = false := by
  induction l with
  | nil => simp
  | cons a l ih =>
    by_cases h : p a
    · simp [List.filter_cons, h]
    · simp [List.filter_cons, h, ih]

/-- C2: region classification of a non-empty span is total and ruled by
the two strict threshold comparisons; a vertical center exactly on either
threshold lands in body.  The margin hypothesis keeps the header band
below the footer band; the analyzer's margins (one tenth each by default)
satisfy it. -/
theorem C2_region_classification (height hmr fmr y0 y1 : ℚ)
    (hh : 0 < height) (hm : hmr + fmr ≤ 1) :
    (classifySpan height hmr fmr y0 y1 = BlockType.header ↔
      (y0 + y1) / 2 < height * hmr) ∧
    (classifySpan height hmr fmr y0 y1 = BlockType.footer ↔
      height * (1 - fmr) < (y0 + y1) / 2) ∧
    (classifySpan height hmr fmr y0 y1 = BlockType.body ↔
      height * hmr ≤ (y0 + y1) / 2 ∧ (y0 + y1) / 2 ≤ height * (1 - fmr)) ∧
    (((y0 + y1) / 2 = height * hmr ∨ (y0 + y1) / 2 = height * (1 - fmr)) →
      classifySpan height hmr fmr y0 y1 = BlockType.body) := by
  have hte : height * hmr ≤ height * (1 - fmr) := by nlinarith
  simp only [classifySpan, gt_iff_lt]
  split_ifs with h1 h2
  · refine ⟨iff_of_true rfl h1,
      iff_of_false (by simp) (fun hc => by linarith),
      iff_of_false (by simp) (fun hc => by linarith [hc.1]),
      fun hc => ?_⟩
    rcases hc with hc | hc
    · rw [hc] at h1; exact absurd h1 (lt_irrefl _)
    · rw [hc] at h1; exact absurd h1 (not_lt.mpr hte)
  · refine ⟨iff_of_false (by simp) (fun hc => by linarith),
      iff_of_true rfl h2,
      iff_of_false (by simp) (fun hc => by linarith [hc.2]),
      fun hc => ?_⟩
    rcases hc with hc | hc
    · rw [hc] at h2; exact absurd h2 (not_lt.mpr hte)
    · rw [hc] at h2; exact absurd h2 (lt_irrefl _)
  · push_neg at h1 h2
    exact ⟨iff_of_false (by simp) (fun hc => by linarith),
      iff_of_false (by simp) (fun hc => by linarith),
      iff_of_true rfl ⟨h1, h2⟩,
      fun _ => rfl⟩

/-- Witness for C2 at the analyzer defaults: on a 100-point page with
one-tenth margins, a span whose center sits exactly on the header
threshold is classified body. -/
theorem C2_region_classification_witness :
    classifySpan 100 (1 / 10) (1 / 10) 0 20 = BlockType.body :=
  (C2_region_classification 100 (1 / 10) (1 / 10) 0 20 (by norm_num)
    (by norm_num)).2.2.2 (Or.inl (by norm_num))

/-- C3 counterexample: a page with no native text and one raster image
block, whose full image query nevertheless returns an empty list (an
inline image appears as a type-1 block but not in the image list), is NOT
classified as needing OCR even though its stripped text is shorter than
20 characters and an image block is present, contradicting the claimed
biconditional. -/
theorem C3_counterexample :
    isScannedPage ⟨"", [], [1]⟩ = false ∧
    (pyStripStr "").length < 20 ∧
    0 < (([1] : List Nat).filter (fun t => t = 1)).length := by decide

/-- C3 amended: a page needs OCR exactly when its stripped native text is
shorter than the minimum length AND its image list is non-empty AND it
has at least one raster image block; the document is native exactly when
no page needs OCR (so also when it has no pages), scanned exactly when it
has pages and all of them need OCR, and mixed exactly when it has a page
of each kind. -/
theorem C3_scanned_classification :
    (∀ (p : PageModel) (minTextLen : Nat),
      isScannedPage p minTextLen = true ↔
        (pyStripStr p.nativeText).length < minTextLen ∧ p.images ≠ [] ∧
          0 < (p.blockTypes.filter (fun t => t = 1)).length) ∧
    (∀ pages : List PageModel,
      (detectDocumentType pages = "native" ↔
        ∀ p ∈ pages, isScannedPage p = false) ∧
      (detectDocumentType pages = "scanned" ↔
        pages ≠ [] ∧ ∀ p ∈ pages, isScannedPage p = true) ∧
      (detectDocumentType pages = "mixed" ↔
        (∃ p ∈ pages, isScannedPage p = true) ∧
          ∃ p ∈ pages, isScannedPage p = false)) := by
  have hpage : ∀ (p : PageModel) (minTextLen : Nat),
      isScannedPage p minTextLen = true ↔
        (pyStripStr p.nativeText).length < minTextLen ∧ p.images ≠ [] ∧
          0 < (p.blockTypes.filter (fun t => t = 1)).length := by
    intro p minTextLen
    simp only [isScannedPage]
    split_ifs with h1 h2
    · constructor
      · intro h; simp at h
      · rintro ⟨hlen, -, -⟩; omega
    · constructor
      · intro h; simp at h
      · rintro ⟨-, him, -⟩
        exact him (List.isEmpty_iff.mp h2)
    · simp only [decide_eq_true_eq]
      constructor
      · intro h
        refine ⟨by omega, fun he => h2 ?_, h⟩
        simp [he]
      · rintro ⟨-, -, h⟩; exact h
  refine ⟨hpage, fun pages => ?_⟩
  simp only [detectDocumentType]
  have hscan0 : ((pages.filter (fun p => isScannedPage p)).length = 0 ↔
      ∀ p ∈ pages, isScannedPage p = false) := filter_length_zero_iff _ _
  have hnat0 : ((pages.filter (fun p => !isScannedPage p)).length = 0 ↔
      ∀ p ∈ pages, isScannedPage p = true) := by
    rw [filter_length_zero_iff]
    constructor
    · intro h p hp
      have := h p hp
      simpa using this
    · intro h p hp
      simp [h p hp]
  have hscanPos : ((pages.filter (fun p => isScannedPage p)).length ≠ 0 ↔
      ∃ p ∈ pages, isScannedPage p = true) := by
    rw [Ne, hscan0]
    push_neg
    constructor
    · rintro ⟨p, hp, h⟩
      exact ⟨p, hp, by simpa using h⟩
    · rintro ⟨p, hp, h⟩
      exact ⟨p, hp, by simp [h]⟩
  have hnatPos : ((pages.filter (fun p => !isScannedPage p)).length ≠ 0 ↔
      ∃ p ∈ pages, isScannedPage p = false) := by
    rw [Ne, hnat0]
    push_neg
    constructor
    · rintro ⟨p, hp, h⟩
      exact ⟨p, hp, by simpa using h⟩
    · rintro ⟨p, hp, h⟩
      exact ⟨p, hp, by simp [h]⟩
  split_ifs with h1 h2
  · refine ⟨iff_of_true rfl (hscan0.mp h1), iff_of_false (by decide) ?_,
      iff_of_false (by decide) ?_⟩
    · rintro ⟨hne, hall⟩
      obtain ⟨p, hp⟩ := List.exists_mem_of_ne_nil pages hne
      have := hscan0.mp h1 p hp
      rw [hall p hp] at this
      exact absurd this (by simp)
    · rintro ⟨⟨p, hp, hs⟩, -⟩
      have := hscan0.mp h1 p hp
      rw [hs] at this
      exact absurd this (by simp)
  · have hex := hscanPos.mp h1
    refine ⟨iff_of_false (by decide) ?_, iff_of_true rfl ?_,
      iff_of_false (by decide) ?_⟩
    · intro hall
      obtain ⟨p, hp, hs⟩ := hex
      rw [hall p hp] at hs
      exact absurd hs (by simp)
    · obtain ⟨p, hp, -⟩ := hex
      exact ⟨List.ne_nil_of_mem hp, hnat0.mp h2⟩
    · rintro ⟨-, p, hp, hs⟩
      have := hnat0.mp h2 p hp
      rw [this] at hs
      exact absurd hs (by simp)
  · refine ⟨iff_of_false (by decide) ?_, iff_of_false (by decide) ?_,
      iff_of_true rfl ⟨hscanPos.mp h1, hnatPos.mp h2⟩⟩
    · intro hall
      obtain ⟨p, hp, hs⟩ := hscanPos.mp h1
      rw [hall p hp] at hs
      exact absurd hs (by simp)
    · rintro ⟨-, hall⟩
      obtain ⟨p, hp, hs⟩ := hnatPos.mp h2
      rw [hall p hp] at hs
      exact absurd hs (by simp)

/-- C5 counterexample: a paragraph with computed font size 20 and text
length 90 satisfies the claimed title condition (size above 14, length
below 100) yet receives no heading style, because the code's guard is
length below 80. -/
theorem C5_counterexample :
    ocrParagraphStyle 20 90 = none ∧ (14 : ℚ) < 20 ∧ (90 : Nat) < 100 := by
  refine ⟨?_, by norm_num, by norm_num⟩
  simp [ocrParagraphStyle]

/-- C5 amended: the heading decision of the OCR path depends only on the
computed font size and the text length: level 1 exactly from 18 points
with length below 80, level 2 exactly from 14 up to below 18 points,
level 3 exactly above 13 and below 14 points, and no heading exactly when
the size is at most 13 points or the length is at least 80; boldness
plays no role.  The claim's scenario sizes behave as stated: size 20 with
15 characters is a level-1 heading and size 20 with 150 characters is no
heading. -/
theorem C5_title_classification :
    (∀ (fs : ℚ) (len : Nat),
      (ocrParagraphStyle fs len = some 1 ↔ 18 ≤ fs ∧ len < 80) ∧
      (ocrParagraphStyle fs len = some 2 ↔ 14 ≤ fs ∧ fs < 18 ∧ len < 80) ∧
      (ocrParagraphStyle fs len = some 3 ↔ 13 < fs ∧ fs < 14 ∧ len < 80) ∧
      (ocrParagraphStyle fs len = none ↔ fs ≤ 13 ∨ 80 ≤ len)) ∧
    ocrParagraphStyle 20 15 = some 1 ∧
    ocrParagraphStyle 20 150 = none := by
  refine ⟨fun fs len => ?_, by norm_num [ocrParagraphStyle],
    by norm_num [ocrParagraphStyle]⟩
  simp only [ocrParagraphStyle]
  split_ifs with hc h18 h14
  · obtain ⟨h13, h80⟩ := hc
    refine ⟨iff_of_true rfl ⟨h18, h80⟩,
      iff_of_false (by simp) (fun hx => by linarith [hx.2.1]),
      iff_of_false (by simp) (fun hx => by linarith [hx.2.1]),
      iff_of_false (by simp) ?_⟩
    rintro (hx | hx)
    · linarith
    · omega
  · obtain ⟨h13, h80⟩ := hc
    push_neg at h18
    refine ⟨iff_of_false (by simp) (fun hx => by linarith [hx.1]),
      iff_of_true rfl ⟨h14, h18, h80⟩,
      iff_of_false (by simp) (fun hx => by linarith [hx.2.1]),
      iff_of_false (by simp) ?_⟩
    rintro (hx | hx)
    · linarith
    · omega
  · obtain ⟨h13, h80⟩ := hc
    push_neg at h18 h14
    refine ⟨iff_of_false (by simp) (fun hx => by linarith [hx.1]),
      iff_of_false (by simp) (fun hx => by linarith [hx.1]),
      iff_of_true rfl ⟨h13, h14, h80⟩,
      iff_of_false (by simp) ?_⟩
    rintro (hx | hx)
    · linarith
    · omega
  · rw [Classical.not_and_iff_or_not_not] at hc
    refine ⟨iff_of_false (by simp) ?_, iff_of_false (by simp) ?_,
      iff_of_false (by simp) ?_, iff_of_true rfl ?_⟩
    · rintro ⟨h18, h80⟩
      rcases hc with h | h
      · push_neg at h; linarith
      · omega
    · rintro ⟨h14, -, h80⟩
      rcases hc with h | h
      · push_neg at h; linarith
      · omega
    · rintro ⟨h13, -, h80⟩
      rcases hc with h | h
      · push_neg at h; linarith
      · omega
    · rcases hc with h | h
      · push_neg at h; exact Or.inl h
      · push_neg at h; exact Or.inr h

/-- Witness for C5 amended at a level-2 point: font size 15 with a short
text is a level-2 heading. -/
theorem C5_title_classification_witness :
    ocrParagraphStyle 15 10 = some 2 :=
  ((C5_title_classification.1 15 10).2.1).mpr ⟨by norm_num, by norm_num, by norm_num⟩

theorem convertStep_foldl (ocr : ℤ → List OCRLine) (heights : ℤ → ℚ) :
    ∀ (pages : List ℤ) (r : ConvResultModel),
      pages.foldl (convertStep ocr heights) r =
        { r with
          pagesConverted := r.pagesConverted + pages.length
          warnings := r.warnings ++
            (pages.map (fun q => (ocrPageToDocx (ocr q) (heights q) q).1)).flatten
          docPages := r.docPages ++
            pages.map (fun q => (ocrPageToDocx (ocr q) (heights q) q).2) } := by
  intro pages
  induction pages with
  | nil => intro r; cases r; simp
  | cons p ps ih =>
    intro r
    rw [List.foldl_cons, ih]
    cases r
    simp [convertStep, List.append_assoc]
    omega

/-- Closed form of the scanned-conversion pass: one count, one warning
list entry-block and one document page per selected page, no errors, and
success. -/
theorem convertScanned_spec (ocr : ℤ → List OCRLine) (heights : ℤ → ℚ)
    (pages : List ℤ) :
    convertScanned ocr heights pages =
      { pagesConverted := pages.length
        warnings :=
          (pages.map (fun q => (ocrPageToDocx (ocr q) (heights q) q).1)).flatten
        errors := []
        docPages := pages.map (fun q => (ocrPageToDocx (ocr q) (heights q) q).2)
        success := true } := by
  simp [convertScanned, convertStep_foldl]

/-- C6: a missing input file fails before validation; with the file
present, a validation error is raised exactly when the start page or the
end page is present and not positive, or both are present with the end
below the start; a coherent one-based inclusive range from s to e becomes
the zero-based integer range from s minus 1 up to the clamped exclusive
bound e; and the range 2 to 3 of a five-page document selects exactly the
second and third zero-based pages and converts exactly two pages. -/
theorem C6_page_range :
    (∀ sp ep : Option ℤ, convertPrelude false sp ep = .error .fileNotFound) ∧
    (∀ sp ep : Option ℤ,
      (∃ m, convertPrelude true sp ep = .error (.invalidRange m)) ↔
        ((∃ s, sp = some s ∧ s ≤ 0) ∨ (∃ e, ep = some e ∧ e ≤ 0) ∨
          (∃ s e, sp = some s ∧ ep = some e ∧ e < s))) ∧
    (∀ (s e : ℤ) (docLen : Nat), 1 ≤ s → s ≤ e →
      getPageRange docLen (some s) (some e) =
        intRange (s - 1) (min e (docLen : ℤ))) ∧
    getPageRange 5 (some 2) (some 3) = [1, 2] ∧
    (∀ (ocr : ℤ → List OCRLine) (heights : ℤ → ℚ),
      (convertScanned ocr heights
        (getPageRange 5 (some 2) (some 3))).pagesConverted = 2) := by
  have hrange : getPageRange 5 (some 2) (some 3) = [1, 2] := by decide
  refine ⟨fun sp ep => by simp [convertPrelude], fun sp ep => ?_, ?_, hrange, ?_⟩
  · rcases sp with _ | s <;> rcases ep with _ | e
    · simp [convertPrelude, resolvePageRange, optNonpos]
    · by_cases he : e ≤ 0 <;>
        simp [convertPrelude, resolvePageRange, optNonpos, he]
    · by_cases hs : s ≤ 0 <;>
        simp [convertPrelude, resolvePageRange, optNonpos, hs]
    · by_cases hs : s ≤ 0
      · simp [convertPrelude, resolvePageRange, optNonpos, hs]
      · by_cases he : e ≤ 0
        · simp [convertPrelude, resolvePageRange, optNonpos, hs, he]
        · by_cases hes : e < s <;>
            simp [convertPrelude, resolvePageRange, optNonpos, hs, he, hes]
  · intro s e docLen h1 h2
    simp only [getPageRange]
    rw [if_neg (by omega), if_neg (by omega)]
  · intro ocr heights
    rw [convertScanned_spec, hrange]
    rfl

/-- Witness for C6 at the claim's concrete range: start 2 and end 3 on a
five-page document resolve to the zero-based range from 1 below 3. -/
theorem C6_page_range_witness :
    getPageRange 5 (some 2) (some 3) = intRange 1 (min 3 (5 : ℤ)) :=
  C6_page_range.2.2.1 2 3 5 (by norm_num) (by norm_num)

/-- C4 counterexample: in the claim's own scenario, five footers reading
Page k of 5, the last digit run of every footer is the constant total 5,
so no consecutive pair increments and the sequential-numbering flag is
false, while the claim asserts it must be true. -/
theorem C4_counterexample :
    (detectCommonHeadersFooters
        [⟨"", "Page 1 of 5"⟩, ⟨"", "Page 2 of 5"⟩, ⟨"", "Page 3 of 5"⟩,
         ⟨"", "Page 4 of 5"⟩, ⟨"", "Page 5 of 5"⟩]).detected_page_numbers = false ∧
    (footerTexts
        [⟨"", "Page 1 of 5"⟩, ⟨"", "Page 2 of 5"⟩, ⟨"", "Page 3 of 5"⟩,
         ⟨"", "Page 4 of 5"⟩, ⟨"", "Page 5 of 5"⟩]).filterMap lastNumber =
      [5, 5, 5, 5, 5] := by
  decide

/-- C4 amended: sequential numbering is reported exactly when at least
two footers contribute a number and the incrementing consecutive pairs
reach 60 percent of the COUNT OF NUMBERS (not of pairs, so two footers 1
and 2, where every pair increments, still report false); on the claim's
five-page Page-k-of-5 document the flag is false, because the extracted
number is the constant trailing total, while the common footer is the
digit-normalized pattern the claim names. -/
theorem C4_page_numbers :
    (∀ footers : List String,
      hasPageNumbers footers = true ↔
        2 ≤ (footers.filterMap lastNumber).length ∧
        3 * (footers.filterMap lastNumber).length ≤
          5 * seqPairs (footers.filterMap lastNumber)) ∧
    hasPageNumbers ["1", "2"] = false ∧
    (detectCommonHeadersFooters
        [⟨"", "Page 1 of 5"⟩, ⟨"", "Page 2 of 5"⟩, ⟨"", "Page 3 of 5"⟩,
         ⟨"", "Page 4 of 5"⟩, ⟨"", "Page 5 of 5"⟩]).common_footer =
      "Page {NUM} of {NUM}" := by
  refine ⟨fun footers => ?_, by decide, by decide⟩
  simp only [hasPageNumbers]
  by_cases h : (footers.filterMap lastNumber).length < 2
  · simp only [if_pos h]
    constructor
    · intro hx; simp at hx
    · rintro ⟨h2, -⟩; omega
  · simp only [if_neg h, decide_eq_true_eq, ge_iff_le]
    omega

/-- C7 (the applying pass is modelled from the spec; the sources only
declare the option): hyphenation removal joins a word broken by a literal
end-of-line hyphen with its continuation word, turning exam-ple and
self-contained back into single words, and a text containing no
word-hyphen-newline-word window anywhere is returned unchanged. -/
theorem C7_hyphenation :
    String.mk (removeHyphenation ("exam-" ++ "\n" ++ "ple").data) = "example" ∧
    String.mk (removeHyphenation ("self-" ++ "\n" ++ "contained").data) =
      "selfcontained" ∧
    ∀ l : List Char, hasHyphBreak l = false → removeHyphenation l = l := by
  have main : ∀ (n : Nat) (l : List Char), l.length ≤ n →
      hasHyphBreak l = false → removeHyphenation l = l := by
    intro n
    induction n with
    | zero =>
      intro l hl _
      have : l = [] := List.eq_nil_of_length_eq_zero (Nat.le_zero.mp hl)
      subst this; rfl
    | succ n ih =>
      intro l hl hb
      match l with
      | [] => rfl
      | [a] => rfl
      | [a, b] => rfl
      | [a, b, c] => rfl
      | a :: b :: c :: d :: rest =>
        simp only [hasHyphBreak, Bool.or_eq_false_iff] at hb
        obtain ⟨hw, hrest⟩ := hb
        simp only [removeHyphenation, hw, Bool.false_eq_true, if_false]
        rw [ih (b :: c :: d :: rest) (by simp at hl ⊢; omega) hrest]
  exact ⟨by decide, by decide, fun l => main l.length l (le_refl _)⟩

/-- Witness for C7 on a hyphen-free text: nothing changes. -/
theorem C7_hyphenation_witness :
    removeHyphenation ("plain text, no breaks.").data =
      ("plain text, no breaks.").data :=
  C7_hyphenation.2.2 ("plain text, no breaks.").data (by decide)

theorem hasColonTrigger_tail {x : Char} {xs : List Char}
    (h : hasColonTrigger (x :: xs) = false) : hasColonTrigger xs = false := by
  match xs with
  | [] => rfl
  | [a] => rfl
  | a :: b :: rest =>
    simp only [hasColonTrigger, Bool.or_eq_false_iff] at h
    exact h.2

theorem hasPeriodTrigger_tail {x : Char} {xs : List Char}
    (h : hasPeriodTrigger (x :: xs) = false) : hasPeriodTrigger xs = false := by
  match xs with
  | [] => rfl
  | [a] => rfl
  | a :: b :: rest =>
    simp only [hasPeriodTrigger, Bool.or_eq_false_iff] at h
    exact h.2

theorem hasLUTrigger_tail {x : Char} {xs : List Char}
    (h : hasLUTrigger (x :: xs) = false) : hasLUTrigger xs = false := by
  match xs with
  | [] => rfl
  | a :: rest =>
    simp only [hasLUTrigger, Bool.or_eq_false_iff] at h
    exact h.2

theorem hasWsRun_tail {x : Char} {xs : List Char}
    (h : hasWsRun (x :: xs) = false) : hasWsRun xs = false := by
  match xs with
  | [] => rfl
  | a :: rest =>
    simp only [hasWsRun, Bool.or_eq_false_iff] at h
    exact h.2

theorem subColon_id : ∀ l : List Char, hasColonTrigger l = false → subColon l = l := by
  have main : ∀ (n : Nat) (l : List Char), l.length ≤ n →
      hasColonTrigger l = false → subColon l = l := by
    intro n
    induction n with
    | zero =>
      intro l hl _
      have : l = [] := List.eq_nil_of_length_eq_zero (Nat.le_zero.mp hl)
      subst this; rfl
    | succ n ih =>
      intro l hl ht
      match l with
      | [] => rfl
      | [a] => rfl
      | [a, b] => rfl
      | a :: b :: c :: rest =>
        simp only [hasColonTrigger, Bool.or_eq_false_iff] at ht
        obtain ⟨hw, hrest⟩ := ht
        simp only [subColon, hw, Bool.false_eq_true, if_false]
        rw [ih (b :: c :: rest) (by simp at hl ⊢; omega) hrest]
  exact fun l => main l.length l (le_refl _)

theorem subLU_id : ∀ l : List Char, hasLUTrigger l = false → subLU l = l := by
  have main : ∀ (n : Nat) (l : List Char), l.length ≤ n →
      hasLUTrigger l = false → subLU l = l := by
    intro n
    induction n with
    | zero =>
      intro l hl _
      have : l = [] := List.eq_nil_of_length_eq_zero (Nat.le_zero.mp hl)
      subst this; rfl
    | succ n ih =>
      intro l hl ht
      match l with
      | [] => rfl
      | [a] => rfl
      | a :: b :: rest =>
        simp only [hasLUTrigger, Bool.or_eq_false_iff] at ht
        obtain ⟨hw, hrest⟩ := ht
        simp only [subLU, hw, Bool.false_eq_true, if_false]
        rw [ih (b :: rest) (by simp at hl ⊢; omega) hrest]
  exact fun l => main l.length l (le_refl _)

theorem subPeriod_id : ∀ l : List Char, hasPeriodTrigger l = false → subPeriod l = l := by
  have main : ∀ (n : Nat) (l : List Char), l.length ≤ n →
      hasPeriodTrigger l = false → subPeriod l = l := by
    intro n
    induction n with
    | zero =>
      intro l hl _
      have : l = [] := List.eq_nil_of_length_eq_zero (Nat.le_zero.mp hl)
      subst this; rfl
    | succ n ih =>
      intro l hl ht
      match l with
      | [] => rfl
      | [a] => rfl
      | [a, b] => rfl
      | a :: b :: c :: rest =>
        simp only [hasPeriodTrigger, Bool.or_eq_false_iff] at ht
        obtain ⟨hw, hrest⟩ := ht
        cases hba : (b = '.' && isWordChar a) with
        | false =>
          rw [subPeriod.eq_def]
          simp only [hba, Bool.false_eq_true, if_false]
          rw [ih (b :: c :: rest) (by simp at hl ⊢; omega) hrest]
        | true =>
          obtain ⟨hbdot, hwa⟩ : b = '.' ∧ isWordChar a = true := by simpa using hba
          subst hbdot
          simp only [eq_self_iff_true, decide_True, Bool.true_and, hwa,
            Bool.and_true] at hw
          rw [Bool.or_eq_false_iff] at hw
          obtain ⟨hwc, hws⟩ := hw
          rw [subPeriod.eq_def]
          simp only [eq_self_iff_true, decide_True, Bool.true_and, hwa, if_true]
          cases hc : isPySpace c with
          | true =>
            match rest with
            | [] => rfl
            | d :: rest2 =>
              have hd : isWordChar d = false := by
                rw [hc] at hws
                simpa using hws
              simp only [hc, if_true, hd, Bool.false_eq_true, if_false]
              have hr2 : hasPeriodTrigger rest2 = false :=
                hasPeriodTrigger_tail (hasPeriodTrigger_tail
                  (hasPeriodTrigger_tail hrest))
              rw [ih rest2 (by simp at hl ⊢; omega) hr2]
          | false =>
            simp only [hc, Bool.false_eq_true, if_false, hwc]
            rw [ih ('.' :: c :: rest) (by simp at hl ⊢; omega) hrest]
  exact fun l => main l.length l (le_refl _)

theorem subSpaces_id : ∀ l : List Char, hasWsRun l = false → subSpaces l = l := by
  have main : ∀ (n : Nat) (l : List Char), l.length ≤ n →
      hasWsRun l = false → subSpacesGo .norm l = l := by
    intro n
    induction n with
    | zero =>
      intro l hl _
      have : l = [] := List.eq_nil_of_length_eq_zero (Nat.le_zero.mp hl)
      subst this; rfl
    | succ n ih =>
      intro l hl ht
      match l with
      | [] => rfl
      | c :: cs =>
        cases hc : isPySpace c with
        | false =>
          simp only [subSpacesGo, hc, Bool.false_eq_true, if_false]
          rw [ih cs (by simp at hl ⊢; omega) (hasWsRun_tail ht)]
        | true =>
          simp only [subSpacesGo, hc, if_true]
          match cs with
          | [] => rfl
          | d :: ds =>
            have hd : isPySpace d = false := by
              simp only [hasWsRun, Bool.or_eq_false_iff] at ht
              have := ht.1
              rw [hc] at this
              simpa using this
            simp only [subSpacesGo, hd, Bool.false_eq_true, if_false]
            rw [ih ds (by simp at hl ⊢; omega)
              (hasWsRun_tail (hasWsRun_tail ht))]
  exact fun l => main l.length l (le_refl _)

theorem dropWhile_head_id {p : Char → Bool} : ∀ {l : List Char},
    l.head?.all (fun c => !p c) = true → l.dropWhile p = l := by
  intro l h
  match l with
  | [] => rfl
  | c :: cs =>
    simp only [List.head?_cons, Option.all_some, Bool.not_eq_true'] at h
    simp [List.dropWhile_cons, h]

theorem pyStrip_id {l : List Char}
    (hhead : l.head?.all (fun c => !isPySpace c) = true)
    (hlast : l.getLast?.all (fun c => !isPySpace c) = true) :
    pyStrip l = l := by
  unfold pyStrip
  rw [dropWhile_head_id hhead]
  rw [dropWhile_head_id (by rw [List.head?_reverse]; exact hlast)]
  exact List.reverse_reverse l

/-- C8 counterexample: the normalization splits an intra-word
lowercase-uppercase boundary, so the correctly spaced input McDonald is
altered, contradicting the claim that already-correct spacing is never
changed. -/
theorem C8_counterexample :
    normalizeOcrSpacing "McDonald" = "Mc Donald" ∧
    normalizeOcrSpacing "McDonald" ≠ "McDonald" := by decide

/-- C8 amended: the normalization inserts a space after a colon between
word characters, after a period between word characters, and between a
lowercase letter followed by an uppercase letter; an input containing
none of those three trigger windows, no two adjacent whitespace
characters and no leading or trailing whitespace is returned unchanged.
Inputs with intra-word case changes or dotted numbers are altered even
when their spacing is correct. -/
theorem C8_ocr_spacing :
    normalizeOcrSpacing "ab:cd" = "ab: cd" ∧
    normalizeOcrSpacing "ab.cd" = "ab. cd" ∧
    normalizeOcrSpacing "abCd" = "ab Cd" ∧
    ∀ s : String,
      hasColonTrigger s.data = false →
      hasPeriodTrigger s.data = false →
      hasLUTrigger s.data = false →
      hasWsRun s.data = false →
      s.data.head?.all (fun c => !isPySpace c) = true →
      s.data.getLast?.all (fun c => !isPySpace c) = true →
      normalizeOcrSpacing s = s := by
  refine ⟨by decide, by decide, by decide, ?_⟩
  intro s h1 h2 h3 h4 h5 h6
  unfold normalizeOcrSpacing
  rw [subColon_id _ h1, subPeriod_id _ h2, subLU_id _ h3, subSpaces_id _ h4,
    pyStrip_id h5 h6]

/-- Witness for C8 amended: a sentence with none of the trigger patterns
is left untouched. -/
theorem C8_ocr_spacing_witness :
    normalizeOcrSpacing "Hello, world." = "Hello, world." :=
  C8_ocr_spacing.2.2.2 "Hello, world." (by decide) (by decide) (by decide)
    (by decide) (by decide) (by decide)

/-- C9: a page of the scanned conversion whose OCR yields no text lines
contributes the no-text warning naming its one-based number, no error,
still counts toward pages-converted, appears blank in the output
document, and the conversion completes with success. -/
theorem C9_no_text_warning (ocr : ℤ → List OCRLine) (heights : ℤ → ℚ)
    (pages : List ℤ) (p : ℤ) (hp : p ∈ pages) (hocr : ocr p = []) :
    (("Página " ++ toString (p + 1) ++ ": nenhum texto detectado pelo OCR") ∈
      (convertScanned ocr heights pages).warnings) ∧
    (convertScanned ocr heights pages).errors = [] ∧
    (convertScanned ocr heights pages).pagesConverted = pages.length ∧
    (convertScanned ocr heights pages).docPages =
      pages.map (fun q => (ocrPageToDocx (ocr q) (heights q) q).2) ∧
    (∀ q ∈ pages, ocr q = [] → (ocrPageToDocx (ocr q) (heights q) q).2 = []) ∧
    (convertScanned ocr heights pages).success = true := by
  rw [convertScanned_spec]
  refine ⟨?_, rfl, rfl, rfl, ?_, rfl⟩
  · have hmem : ("Página " ++ toString (p + 1) ++
        ": nenhum texto detectado pelo OCR") ∈
        (ocrPageToDocx (ocr p) (heights p) p).1 := by
      rw [hocr]
      simp [ocrPageToDocx]
    exact List.mem_flatten.mpr ⟨_, List.mem_map_of_mem _ hp, hmem⟩
  · intro q hq hq0
    rw [hq0]
    simp [ocrPageToDocx]

/-- Witness for C9 on a one-page document whose OCR finds nothing: the
warning for page one is recorded. -/
theorem C9_no_text_warning_witness :
    ("Página " ++ toString ((0 : ℤ) + 1) ++
      ": nenhum texto detectado pelo OCR") ∈
      (convertScanned (fun _ => ([] : List OCRLine)) (fun _ => 842)
        [0]).warnings :=
  (C9_no_text_warning (fun _ => ([] : List OCRLine)) (fun _ => 842) [0] 0
    (by simp) rfl).1

theorem pyWordsA_words_nonws : ∀ (l buf : List Char),
    (∀ c ∈ buf, isPySpace c = false) →
    ∀ w ∈ pyWordsA buf l, w ≠ [] ∧ ∀ c ∈ w, isPySpace c = false := by
  intro l
  induction l with
  | nil =>
    intro buf hbuf w hw
    by_cases hb : buf.isEmpty
    · simp [pyWordsA, hb] at hw
    · simp only [pyWordsA, hb, Bool.false_eq_true, if_false,
        List.mem_singleton] at hw
      subst hw
      exact ⟨fun he => hb (by simp [he]), hbuf⟩
  | cons c cs ih =>
    intro buf hbuf w hw
    by_cases hc : isPySpace c
    · simp only [pyWordsA, hc, if_true] at hw
      by_cases hb : buf.isEmpty
      · rw [if_pos hb] at hw
        exact ih [] (by simp) w hw
      · rw [if_neg hb] at hw
        rcases List.mem_cons.mp hw with hw | hw
        · subst hw
          exact ⟨fun he => hb (by simp [he]), hbuf⟩
        · exact ih [] (by simp) w hw
    · simp only [pyWordsA, hc, Bool.false_eq_true, if_false] at hw
      refine ih (buf ++ [c]) ?_ w hw
      intro x hx
      rcases List.mem_append.mp hx with hx | hx
      · exact hbuf x hx
      · rw [List.mem_singleton.mp hx]
        exact Bool.not_eq_true _ ▸ hc

theorem pyWordsA_word_step : ∀ (w buf l : List Char),
    (∀ c ∈ w, isPySpace c = false) →
    pyWordsA buf (w ++ l) = pyWordsA (buf ++ w) l := by
  intro w
  induction w with
  | nil => intro buf l _; simp
  | cons c w' ih =>
    intro buf l hw
    have hc : isPySpace c = false := hw c (by simp)
    calc pyWordsA buf ((c :: w') ++ l)
        = pyWordsA (buf ++ [c]) (w' ++ l) := by
          simp only [List.cons_append, pyWordsA, hc, Bool.false_eq_true,
            if_false, List.append_eq]
      _ = pyWordsA ((buf ++ [c]) ++ w') l :=
          ih (buf ++ [c]) l (fun x hx => hw x (by simp [hx]))
      _ = pyWordsA (buf ++ (c :: w')) l := by
          simp [List.append_assoc]

theorem pyWordsA_sep (buf l : List Char) (h : buf ≠ []) :
    pyWordsA buf (' ' :: l) = buf :: pyWordsA [] l := by
  have hb : buf.isEmpty = false := by
    cases buf
    · exact absurd rfl h
    · rfl
  simp [pyWordsA, isPySpace, hb]

theorem pyWordsA_end (buf : List Char) (h : buf ≠ []) :
    pyWordsA buf [] = [buf] := by
  have hb : buf.isEmpty = false := by
    cases buf
    · exact absurd rfl h
    · rfl
  simp [pyWordsA, hb]

theorem intercalate_cons₂ (s a b : List Char) (l : List (List Char)) :
    List.intercalate s (a :: b :: l) = a ++ s ++ List.intercalate s (b :: l) := by
  simp [List.intercalate, List.intersperse]

theorem intercalate_single (s a : List Char) :
    List.intercalate s [a] = a := by
  simp [List.intercalate]

theorem pyWords_intercalate : ∀ ws : List (List Char),
    (∀ w ∈ ws, w ≠ [] ∧ ∀ c ∈ w, isPySpace c = false) →
    pyWords (List.intercalate [' '] ws) = ws := by
  intro ws
  induction ws with
  | nil => intro _; rfl
  | cons w ws ih =>
    intro h
    match ws, ih with
    | [], _ =>
      rw [intercalate_single]
      unfold pyWords
      rw [← List.append_nil w, pyWordsA_word_step w [] [] (h w (by simp)).2]
      simp only [List.nil_append, List.append_nil]
      exact pyWordsA_end w (h w (by simp)).1
    | w2 :: ws2, ih =>
      rw [intercalate_cons₂, List.append_assoc, List.singleton_append]
      unfold pyWords
      rw [pyWordsA_word_step w [] _ (h w (by simp)).2]
      simp only [List.nil_append]
      rw [pyWordsA_sep w _ (h w (by simp)).1]
      have := ih (fun x hx => h x (List.mem_cons_of_mem _ hx))
      unfold pyWords at this
      rw [this]

theorem wrapGo_flatten (cpl : ℤ) : ∀ (ws : List (List Char))
    (cur : List (List Char)) (len : ℤ),
    (wrapGo cpl cur len ws).flatten = cur ++ ws := by
  intro ws
  induction ws with
  | nil =>
    intro cur len
    by_cases h : cur.isEmpty
    · have : cur = [] := List.isEmpty_iff.mp h
      simp [wrapGo, h, this]
    · simp [wrapGo, h]
  | cons w ws ih =>
    intro cur len
    simp only [wrapGo]
    by_cases h : len + w.length + 1 ≤ cpl
    · rw [if_pos h, ih]
      simp
    · rw [if_neg h]
      by_cases hc : cur.isEmpty
      · have : cur = [] := List.isEmpty_iff.mp hc
        simp [hc, this, ih]
      · simp [hc, ih]

theorem wrapGo_chunk_ne_nil (cpl : ℤ) : ∀ (ws : List (List Char))
    (cur : List (List Char)) (len : ℤ) (ch : List (List Char)),
    ch ∈ wrapGo cpl cur len ws → ch ≠ [] := by
  intro ws
  induction ws with
  | nil =>
    intro cur len ch hch
    by_cases h : cur.isEmpty
    · simp [wrapGo, h] at hch
    · simp only [wrapGo, h, Bool.false_eq_true, if_false,
        List.mem_singleton] at hch
      subst hch
      exact fun he => h (by simp [he])
  | cons w ws ih =>
    intro cur len ch hch
    simp only [wrapGo] at hch
    by_cases h : len + w.length + 1 ≤ cpl
    · rw [if_pos h] at hch
      exact ih _ _ ch hch
    · rw [if_neg h] at hch
      rcases List.mem_append.mp hch with hch | hch
      · by_cases hc : cur.isEmpty
        · simp [hc] at hch
        · simp only [hc, Bool.false_eq_true, if_false,
            List.mem_singleton] at hch
          subst hch
          exact fun he => hc (by simp [he])
      · exact ih _ _ ch hch

theorem intercalate_append_split : ∀ (xs ys : List (List Char)),
    xs ≠ [] → ys ≠ [] →
    List.intercalate [' '] (xs ++ ys) =
      List.intercalate [' '] xs ++ ' ' :: List.intercalate [' '] ys := by
  intro xs
  induction xs with
  | nil => intro ys h; exact absurd rfl h
  | cons x xs ih =>
    intro ys _ hys
    match xs with
    | [] =>
      match ys with
      | y :: ys2 =>
        rw [List.singleton_append, intercalate_cons₂, intercalate_single,
          List.append_assoc, List.singleton_append]
    | x2 :: xs2 =>
      rw [List.cons_append, List.cons_append, intercalate_cons₂,
        ← List.cons_append, ih ys (by simp) hys, intercalate_cons₂]
      simp [List.append_assoc]

theorem intercalate_map_spaceJoin : ∀ chunks : List (List (List Char)),
    (∀ ch ∈ chunks, ch ≠ []) →
    List.intercalate [' '] (chunks.map spaceJoin) =
      List.intercalate [' '] chunks.flatten := by
  intro chunks
  induction chunks with
  | nil => intro _; rfl
  | cons ch chunks ih =>
    intro h
    match chunks, ih with
    | [], _ =>
      simp [spaceJoin, intercalate_single]
    | ch2 :: chunks2, ih =>
      have hch : ch ≠ [] := h ch (by simp)
      have hfl : (ch2 :: chunks2).flatten ≠ [] := by
        have hch2 : ch2 ≠ [] := h ch2 (by simp)
        simp only [List.flatten_cons]
        intro he
        rcases List.append_eq_nil.mp he with ⟨h1, -⟩
        exact hch2 h1
      rw [List.map_cons, List.map_cons, intercalate_cons₂, ← List.map_cons,
        List.append_assoc, List.singleton_append,
        ih (fun c hc => h c (List.mem_cons_of_mem _ hc))]
      conv_rhs => rw [List.flatten_cons]
      rw [intercalate_append_split ch _ hch hfl]
      simp [spaceJoin]

/-- C10: the text wrapper is total and word-preserving: for every text
and positive width and font size it returns a non-empty line list, and
the whitespace words of the space-joined lines are exactly the whitespace
words of the input, in order. -/
theorem C10_wrap_words (text : List Char) (maxWidth fontSize : ℚ)
    (_hw : 0 < maxWidth) (_hf : 0 < fontSize) :
    wrapText text maxWidth fontSize ≠ [] ∧
    pyWords (List.intercalate [' '] (wrapText text maxWidth fontSize)) =
      pyWords text := by
  have hwordsp : ∀ w ∈ pyWords text, w ≠ [] ∧ ∀ c ∈ w, isPySpace c = false :=
    pyWordsA_words_nonws text [] (by simp)
  simp only [wrapText]
  by_cases h : (List.map spaceJoin
      (wrapGo (pyTrunc (maxWidth / (fontSize * (1 / 2)))) [] 0
        (pyWords text))).isEmpty
  · have hchunks : wrapGo (pyTrunc (maxWidth / (fontSize * (1 / 2)))) [] 0
        (pyWords text) = [] := by
      have := List.isEmpty_iff.mp h
      exact List.map_eq_nil_iff.mp this
    have hwords : pyWords text = [] := by
      have hfl := wrapGo_flatten (pyTrunc (maxWidth / (fontSize * (1 / 2))))
        (pyWords text) [] 0
      rw [hchunks] at hfl
      simpa using hfl.symm
    rw [if_pos h]
    refine ⟨by simp, ?_⟩
    rw [intercalate_single, hwords]
    rfl
  · rw [if_neg h]
    refine ⟨?_, ?_⟩
    · intro he
      rw [he] at h
      exact h rfl
    · rw [intercalate_map_spaceJoin _
        (fun ch hch => wrapGo_chunk_ne_nil _ _ _ _ ch hch)]
      have hfl := wrapGo_flatten (pyTrunc (maxWidth / (fontSize * (1 / 2))))
        (pyWords text) [] 0
      simp only [List.nil_append] at hfl
      rw [hfl]
      exact pyWords_intercalate (pyWords text) hwordsp

/-- Witness for C10 on a concrete text and the builder's body width and
default font size. -/
theorem C10_wrap_words_witness :
    wrapText ("hello world").data 451 11 ≠ [] ∧
    pyWords (List.intercalate [' '] (wrapText ("hello world").data 451 11)) =
      pyWords ("hello world").data :=
  C10_wrap_words ("hello world").data 451 11 (by norm_num) (by norm_num)

theorem firstMax_eq_none : ∀ {ps : List (String × Nat)},
    firstMax ps = none → ps = [] := by
  intro ps h
  match ps with
  | [] => rfl
  | p :: ps' =>
    simp only [firstMax] at h
    cases hm : firstMax ps' with
    | none => simp only [hm] at h; simp at h
    | some q => simp only [hm] at h; split_ifs at h

theorem firstMax_mem : ∀ {ps : List (String × Nat)} {q : String × Nat},
    firstMax ps = some q → q ∈ ps := by
  intro ps
  induction ps with
  | nil => intro q h; simp [firstMax] at h
  | cons p ps ih =>
    intro q h
    simp only [firstMax] at h
    cases hm : firstMax ps with
    | none =>
      simp only [hm, Option.some.injEq] at h
      exact h ▸ List.mem_cons_self p ps
    | some r =>
      simp only [hm] at h
      split_ifs at h
      · simp only [Option.some.injEq] at h
        exact List.mem_cons_of_mem _ (h ▸ ih hm)
      · simp only [Option.some.injEq] at h
        exact h ▸ List.mem_cons_self p ps

theorem firstMax_ge : ∀ {ps : List (String × Nat)} {q : String × Nat},
    firstMax ps = some q → ∀ r ∈ ps, r.2 ≤ q.2 := by
  intro ps
  induction ps with
  | nil => intro q _ r hr; simp at hr
  | cons p ps ih =>
    intro q h r hr
    simp only [firstMax] at h
    cases hm : firstMax ps with
    | none =>
      have hnil : ps = [] := firstMax_eq_none hm
      simp only [hm, Option.some.injEq] at h
      subst h
      rcases List.mem_cons.mp hr with rfl | hr
      · exact le_refl _
      · rw [hnil] at hr; simp at hr
    | some m =>
      simp only [hm] at h
      split_ifs at h with hgt
      · simp only [Option.some.injEq] at h
        subst h
        rcases List.mem_cons.mp hr with rfl | hr
        · exact le_of_lt hgt
        · exact ih hm r hr
      · simp only [Option.some.injEq] at h
        subst h
        rcases List.mem_cons.mp hr with rfl | hr
        · exact le_refl _
        · exact le_trans (ih hm r hr) (not_lt.mp hgt)

theorem mem_firstOccs : ∀ (l : List String) (a : String),
    a ∈ firstOccs l ↔ a ∈ l := by
  intro l
  induction l with
  | nil => intro a; simp [firstOccs]
  | cons x xs ih =>
    intro a
    simp only [firstOccs, List.mem_cons]
    constructor
    · rintro (rfl | ha)
      · exact Or.inl rfl
      · exact Or.inr ((ih a).mp (List.mem_filter.mp ha).1)
    · rintro (rfl | ha)
      · exact Or.inl rfl
      · by_cases hax : a = x
        · exact Or.inl hax
        · refine Or.inr (List.mem_filter.mpr ⟨(ih a).mpr ha, ?_⟩)
          simpa using hax

theorem mostCommon1_spec (l : List String) (hne : l ≠ []) :
    ∃ pc : String × Nat, mostCommon1 l = some pc ∧ pc.1 ∈ l ∧
      pc.2 = l.count pc.1 ∧ ∀ a ∈ l, l.count a ≤ pc.2 := by
  have hmne : (firstOccs l).map (fun k => (k, l.count k)) ≠ [] := by
    match l, hne with
    | x :: xs, _ => simp [firstOccs]
  cases hm : firstMax ((firstOccs l).map (fun k => (k, l.count k))) with
  | none => exact absurd (firstMax_eq_none hm) hmne
  | some pc =>
    have hmem := firstMax_mem hm
    obtain ⟨k, hk, hpc⟩ := List.mem_map.mp hmem
    have hk1 : pc.1 = k := by rw [← hpc]
    have hk2 : pc.2 = l.count k := by rw [← hpc]
    refine ⟨pc, ?_, ?_, ?_, ?_⟩
    · simp only [mostCommon1]
      exact hm
    · rw [hk1]; exact (mem_firstOccs l k).mp hk
    · rw [hk2, hk1]
    · intro a ha
      have haf : a ∈ firstOccs l := (mem_firstOccs l a).mpr ha
      exact firstMax_ge hm _ (List.mem_map_of_mem _ haf)

theorem digit_not_ws {c : Char} (h : isAsciiDigit c = true) :
    isPySpace c = false := by
  cases hsp : isPySpace c with
  | false => rfl
  | true =>
    simp only [isPySpace, Bool.or_eq_true, decide_eq_true_eq] at hsp
    rcases hsp with ((((h1 | h1) | h1) | h1) | h1) | h1 <;> subst h1 <;>
      exact absurd h (by decide)

theorem flushRun_nonws {lo ro : Bool} {buf : List Char} (hbne : buf ≠ [])
    (hbuf : ∀ c ∈ buf, isAsciiDigit c = true) :
    ∃ c ∈ flushRun lo buf ro, isPySpace c = false := by
  have hbe : buf.isEmpty = false := by
    cases buf
    · exact absurd rfl hbne
    · rfl
  simp only [flushRun, hbe, Bool.false_eq_true, if_false]
  by_cases hlo : (lo && ro) = true
  · rw [if_pos hlo]
    exact ⟨'{', by simp [numTok], by decide⟩
  · rw [if_neg hlo]
    match buf, hbuf with
    | d :: _, hbuf => exact ⟨d, by simp, digit_not_ws (hbuf d (by simp))⟩

theorem normNumsA_keeps_nonws : ∀ (l : List Char) (pw lo : Bool)
    (buf : List Char), (∀ c ∈ buf, isAsciiDigit c = true) →
    ((∃ c ∈ l, isPySpace c = false) ∨ buf ≠ []) →
    ∃ c ∈ normNumsA pw lo buf l, isPySpace c = false := by
  intro l
  induction l with
  | nil =>
    intro pw lo buf hbuf hex
    rcases hex with ⟨c, hc, -⟩ | hbne
    · simp at hc
    · simp only [normNumsA]
      exact flushRun_nonws hbne hbuf
  | cons c cs ih =>
    intro pw lo buf hbuf hex
    by_cases hc : isAsciiDigit c
    · simp only [normNumsA, hc, if_true]
      by_cases hb : buf.isEmpty
      · rw [if_pos hb]
        refine ih true (!pw) [c] ?_ (Or.inr (by simp))
        intro x hx
        rw [List.mem_singleton.mp hx]
        exact hc
      · rw [if_neg hb]
        refine ih true lo (buf ++ [c]) ?_ (Or.inr (by simp))
        intro x hx
        rcases List.mem_append.mp hx with hx | hx
        · exact hbuf x hx
        · rw [List.mem_singleton.mp hx]
          exact hc
    · have hcb : isAsciiDigit c = false := Bool.not_eq_true _ ▸ hc
      simp only [normNumsA, hcb, Bool.false_eq_true, if_false]
      by_cases hcw : isPySpace c
      · rcases hex with ⟨d, hd, hdf⟩ | hbne
        · rcases List.mem_cons.mp hd with rfl | hd
          · rw [hcw] at hdf; exact absurd hdf (by simp)
          · obtain ⟨e, he, hef⟩ :=
              ih (isWordChar c) true [] (by simp) (Or.inl ⟨d, hd, hdf⟩)
            exact ⟨e, by simp [he], hef⟩
        · obtain ⟨e, he, hef⟩ := @flushRun_nonws lo (!isWordChar c) buf
            hbne hbuf
          exact ⟨e, List.mem_append_left _ he, hef⟩
      · refine ⟨c, ?_, Bool.not_eq_true _ ▸ hcw⟩
        exact List.mem_append_right _ (by simp)

theorem collapseWs_keeps_nonws : ∀ l : List Char,
    (∃ c ∈ l, isPySpace c = false) →
    ∃ c ∈ collapseWs l, isPySpace c = false := by
  intro l
  induction l with
  | nil => intro h; obtain ⟨c, hc, -⟩ := h; simp at hc
  | cons c cs ih =>
    intro h
    by_cases hc : isPySpace c
    · have hcs : ∃ d ∈ cs, isPySpace d = false := by
        obtain ⟨d, hd, hdf⟩ := h
        rcases List.mem_cons.mp hd with rfl | hd
        · rw [hc] at hdf; exact absurd hdf (by simp)
        · exact ⟨d, hd, hdf⟩
      simp only [collapseWs, hc, if_true]
      match cs, hcs, ih with
      | [], hcs, _ => obtain ⟨d, hd, -⟩ := hcs; simp at hd
      | d :: ds, hcs, ih =>
        obtain ⟨e, he, hef⟩ := ih hcs
        show ∃ x ∈ (if isPySpace d = true then collapseWs (d :: ds)
          else ' ' :: collapseWs (d :: ds)), isPySpace x = false
        by_cases hd : isPySpace d
        · rw [if_pos hd]
          exact ⟨e, he, hef⟩
        · rw [if_neg hd]
          exact ⟨e, List.mem_cons_of_mem _ he, hef⟩
    · simp only [collapseWs, hc, Bool.false_eq_true, if_false]
      exact ⟨c, by simp, Bool.not_eq_true _ ▸ hc⟩

theorem mem_dropWhile_of_false {p : Char → Bool} {a : Char} :
    ∀ {l : List Char}, a ∈ l → p a = false → a ∈ l.dropWhile p := by
  intro l
  induction l with
  | nil => intro h _; simp at h
  | cons c cs ih =>
    intro ha hpa
    by_cases hc : p c
    · rw [List.dropWhile_cons, if_pos hc]
      rcases List.mem_cons.mp ha with rfl | ha
      · rw [hpa] at hc; exact absurd hc (by simp)
      · exact ih ha hpa
    · rw [List.dropWhile_cons, if_neg hc]
      exact ha

theorem pyStrip_ne_nil {l : List Char}
    (h : ∃ c ∈ l, isPySpace c = false) : pyStrip l ≠ [] := by
  obtain ⟨c, hc, hcf⟩ := h
  have h1 : c ∈ l.dropWhile isPySpace := mem_dropWhile_of_false hc hcf
  have h2 : c ∈ (l.dropWhile isPySpace).reverse := List.mem_reverse.mpr h1
  have h3 : c ∈ (l.dropWhile isPySpace).reverse.dropWhile isPySpace :=
    mem_dropWhile_of_false h2 hcf
  have h4 : c ∈ pyStrip l := by
    unfold pyStrip
    exact List.mem_reverse.mpr h3
  exact List.ne_nil_of_mem h4

theorem normalizePattern_ne_empty {s : String}
    (h : ∃ c ∈ s.data, isPySpace c = false) : normalizePattern s ≠ "" := by
  intro he
  have hl : pyStrip (collapseWs (normNums s.data)) = [] :=
    congrArg String.data he
  have h1 := normNumsA_keeps_nonws s.data false true [] (by simp) (Or.inl h)
  have h2 := collapseWs_keeps_nonws _ h1
  exact pyStrip_ne_nil h2 hl

theorem findCommonPattern_spec (texts : List String)
    (hne : ∀ t ∈ texts, normalizePattern t ≠ "") :
    (findCommonPattern texts ≠ "" ↔
      ∃ pat ∈ texts.map normalizePattern,
        texts.length ≤ 2 * (texts.map normalizePattern).count pat) ∧
    (findCommonPattern texts ≠ "" →
      findCommonPattern texts ∈ texts.map normalizePattern ∧
      texts.length ≤
        2 * (texts.map normalizePattern).count (findCommonPattern texts) ∧
      ∀ q ∈ texts.map normalizePattern,
        (texts.map normalizePattern).count q ≤
          (texts.map normalizePattern).count (findCommonPattern texts)) := by
  match texts with
  | [] =>
    constructor
    · simp [findCommonPattern]
    · intro h
      exact absurd rfl h
  | t :: ts =>
    obtain ⟨pc, hpc, hmem, hcount, hmax⟩ :=
      mostCommon1_spec ((t :: ts).map normalizePattern) (by simp)
    have hfcp : findCommonPattern (t :: ts) =
        if 2 * pc.2 ≥ (t :: ts).length then pc.1 else "" := by
      simp only [findCommonPattern, List.isEmpty_cons, Bool.false_eq_true,
        if_false, hpc]
    by_cases hth : 2 * pc.2 ≥ (t :: ts).length
    · rw [if_pos hth] at hfcp
      have hpcne : pc.1 ≠ "" := by
        obtain ⟨u, hu, hupat⟩ := List.mem_map.mp hmem
        rw [← hupat]
        exact hne u hu
      refine ⟨⟨fun _ => ⟨pc.1, hmem, by rw [← hcount]; exact hth⟩,
        fun _ => by rw [hfcp]; exact hpcne⟩, fun _ => ?_⟩
      rw [hfcp]
      exact ⟨hmem, by rw [← hcount]; exact hth,
        fun q hq => by rw [← hcount]; exact hmax q hq⟩
    · rw [if_neg hth] at hfcp
      constructor
      · constructor
        · intro h; exact absurd hfcp h
        · rintro ⟨pat, hpat, hth2⟩
          exfalso
          have h1 := hmax pat hpat
          rw [hcount] at hth
          omega
      · intro h; exact absurd hfcp h

/-- C1 amended: for every analyzed document with AT LEAST TWO pages, the
common header (and footer) is non-empty exactly when some normalized
pattern occurs in at least half of the pages whose header (footer) text
is non-empty, and when non-empty it is a normalized pattern of maximal
multiplicity among them.  A single-page document always reports empty
common header and footer, because the detection pass returns before
looking at the one page.  The hypothesis that every non-empty
header/footer text has a non-whitespace character holds for every
analyzed document, whose page texts are built from stripped non-empty
span texts. -/
theorem C1_boilerplate (pages : List PageHF) (h2 : 2 ≤ pages.length)
    (hH : ∀ p ∈ pages, p.header_text ≠ "" →
      ∃ c ∈ p.header_text.data, isPySpace c = false)
    (hF : ∀ p ∈ pages, p.footer_text ≠ "" →
      ∃ c ∈ p.footer_text.data, isPySpace c = false) :
    ((detectCommonHeadersFooters pages).common_header ≠ "" ↔
      ∃ pat ∈ (headerTexts pages).map normalizePattern,
        (headerTexts pages).length ≤
          2 * ((headerTexts pages).map normalizePattern).count pat) ∧
    ((detectCommonHeadersFooters pages).common_header ≠ "" →
      (detectCommonHeadersFooters pages).common_header ∈
        (headerTexts pages).map normalizePattern ∧
      (headerTexts pages).length ≤
        2 * ((headerTexts pages).map normalizePattern).count
          ((detectCommonHeadersFooters pages).common_header) ∧
      ∀ q ∈ (headerTexts pages).map normalizePattern,
        ((headerTexts pages).map normalizePattern).count q ≤
          ((headerTexts pages).map normalizePattern).count
            ((detectCommonHeadersFooters pages).common_header)) ∧
    ((detectCommonHeadersFooters pages).common_footer ≠ "" ↔
      ∃ pat ∈ (footerTexts pages).map normalizePattern,
        (footerTexts pages).length ≤
          2 * ((footerTexts pages).map normalizePattern).count pat) ∧
    ((detectCommonHeadersFooters pages).common_footer ≠ "" →
      (detectCommonHeadersFooters pages).common_footer ∈
        (footerTexts pages).map normalizePattern ∧
      (footerTexts pages).length ≤
        2 * ((footerTexts pages).map normalizePattern).count
          ((detectCommonHeadersFooters pages).common_footer) ∧
      ∀ q ∈ (footerTexts pages).map normalizePattern,
        ((footerTexts pages).map normalizePattern).count q ≤
          ((footerTexts pages).map normalizePattern).count
            ((detectCommonHeadersFooters pages).common_footer)) := by
  have hneH : ∀ t ∈ headerTexts pages, normalizePattern t ≠ "" := by
    intro t ht
    obtain ⟨htm, htne⟩ := List.mem_filter.mp ht
    obtain ⟨p, hp, hpt⟩ := List.mem_map.mp htm
    refine normalizePattern_ne_empty ?_
    rw [← hpt]
    exact hH p hp (by rw [hpt]; simpa using htne)
  have hneF : ∀ t ∈ footerTexts pages, normalizePattern t ≠ "" := by
    intro t ht
    obtain ⟨htm, htne⟩ := List.mem_filter.mp ht
    obtain ⟨p, hp, hpt⟩ := List.mem_map.mp htm
    refine normalizePattern_ne_empty ?_
    rw [← hpt]
    exact hF p hp (by rw [hpt]; simpa using htne)
  have hch : (detectCommonHeadersFooters pages).common_header =
      if (headerTexts pages).isEmpty then ""
      else findCommonPattern (headerTexts pages) := by
    rw [detectCommonHeadersFooters, if_neg (by omega)]
  have hcf : (detectCommonHeadersFooters pages).common_footer =
      if (footerTexts pages).isEmpty then ""
      else findCommonPattern (footerTexts pages) := by
    rw [detectCommonHeadersFooters, if_neg (by omega)]
  refine ⟨?_, ?_, ?_, ?_⟩
  · by_cases hH0 : (headerTexts pages).isEmpty
    · rw [hch, if_pos hH0]
      have he : headerTexts pages = [] := List.isEmpty_iff.mp hH0
      simp [he]
    · rw [hch, if_neg hH0]
      exact (findCommonPattern_spec _ hneH).1
  · by_cases hH0 : (headerTexts pages).isEmpty
    · rw [hch, if_pos hH0]
      intro h
      exact absurd rfl h
    · rw [hch, if_neg hH0]
      exact (findCommonPattern_spec _ hneH).2
  · by_cases hF0 : (footerTexts pages).isEmpty
    · rw [hcf, if_pos hF0]
      have he : footerTexts pages = [] := List.isEmpty_iff.mp hF0
      simp [he]
    · rw [hcf, if_neg hF0]
      exact (findCommonPattern_spec _ hneF).1
  · by_cases hF0 : (footerTexts pages).isEmpty
    · rw [hcf, if_pos hF0]
      intro h
      exact absurd rfl h
    · rw [hcf, if_neg hF0]
      exact (findCommonPattern_spec _ hneF).2

/-- C1 counterexample: the claim includes single-page documents, but the
detection pass returns early below two pages: the one header recurs in
100 percent of the header-bearing pages, yet the common header stays
empty. -/
theorem C1_counterexample :
    (detectCommonHeadersFooters [⟨"Confidential", "1"⟩]).common_header = "" ∧
    ∃ pat ∈ (headerTexts [⟨"Confidential", "1"⟩]).map normalizePattern,
      (headerTexts [⟨"Confidential", "1"⟩]).length ≤
        2 * ((headerTexts [⟨"Confidential", "1"⟩]).map
          normalizePattern).count pat := by
  decide

/-- Witness for C1 amended on a two-page document with a recurring
header: the biconditional holds there. -/
theorem C1_boilerplate_witness :
    (detectCommonHeadersFooters
        [⟨"Acme Corp", "1"⟩, ⟨"Acme Corp", "2"⟩]).common_header ≠ "" ↔
      ∃ pat ∈ (headerTexts
          [⟨"Acme Corp", "1"⟩, ⟨"Acme Corp", "2"⟩]).map normalizePattern,
        (headerTexts [⟨"Acme Corp", "1"⟩, ⟨"Acme Corp", "2"⟩]).length ≤
          2 * ((headerTexts [⟨"Acme Corp", "1"⟩, ⟨"Acme Corp", "2"⟩]).map
            normalizePattern).count pat :=
  (C1_boilerplate [⟨"Acme Corp", "1"⟩, ⟨"Acme Corp", "2"⟩] (by decide)
    (by decide) (by decide)).1

end Converso
